import Mathlib

namespace Mosu

/-- Kernel-computable addition on `ℚ`. The Rust source computes with `f64`;
the model uses exact rationals, so floating-point rounding and non-finite
values are outside the model. -/
def qadd (a b : ℚ) : ℚ := mkRat (a.num * b.den + b.num * a.den) (a.den * b.den)

/-- Kernel-computable negation on `ℚ`. -/
def qneg (a : ℚ) : ℚ := Rat.neg a

/-- Kernel-computable subtraction on `ℚ`. -/
def qsub (a b : ℚ) : ℚ := qadd a (qneg b)

/-- Kernel-computable multiplication on `ℚ`. -/
def qmul (a b : ℚ) : ℚ := mkRat (a.num * b.num) (a.den * b.den)

/-- Kernel-computable division on `ℚ`; division by zero yields 0, matching
Lean division on `ℚ` (the Rust `f64` division by zero is not modelled). -/
def qdiv (a b : ℚ) : ℚ :=
  if 0 ≤ b.num then mkRat (a.num * b.den) (a.den * b.num.toNat)
  else mkRat (-(a.num * b.den)) (a.den * (-b.num).toNat)

/-- Kernel-computable absolute value on `ℚ`, mirroring Rust `f64::abs`. -/
def qabs (a : ℚ) : ℚ := if a.num < 0 then qneg a else a

/-- Kernel-computable maximum on `ℚ`, mirroring Rust `f64::max` on finite values. -/
def qmax (a b : ℚ) : ℚ := if a ≤ b then b else a

/-- Kernel-computable maximum on `ℤ`, mirroring Rust `i32::max`. -/
def imax (a b : Int) : Int := if a ≤ b then b else a

theorem qneg_eq (a : ℚ) : qneg a = -a := rfl

theorem qadd_eq (a b : ℚ) : qadd a b = a + b := by
  have ha : ((a.den : ℚ)) ≠ 0 := by exact_mod_cast a.den_nz
  have hb : ((b.den : ℚ)) ≠ 0 := by exact_mod_cast b.den_nz
  rw [qadd, Rat.mkRat_eq_div]
  push_cast
  rw [show ((a.num : ℚ)) * b.den + b.num * a.den = a.num * b.den + a.den * b.num from by ring]
  rw [← div_add_div _ _ ha hb, Rat.num_div_den, Rat.num_div_den]

theorem qsub_eq (a b : ℚ) : qsub a b = a - b := by
  rw [qsub, qneg_eq, qadd_eq, sub_eq_add_neg]

theorem qmul_eq (a b : ℚ) : qmul a b = a * b := by
  have ha : ((a.den : ℚ)) ≠ 0 := by exact_mod_cast a.den_nz
  have hb : ((b.den : ℚ)) ≠ 0 := by exact_mod_cast b.den_nz
  rw [qmul, Rat.mkRat_eq_div]
  push_cast
  rw [← div_mul_div_comm, Rat.num_div_den, Rat.num_div_den]

theorem qdiv_eq (a b : ℚ) : qdiv a b = a / b := by
  have ha : ((a.den : ℚ)) ≠ 0 := by exact_mod_cast a.den_nz
  have hb : ((b.den : ℚ)) ≠ 0 := by exact_mod_cast b.den_nz
  rcases lt_trichotomy b.num 0 with hn | hn | hn
  · rw [qdiv, if_neg (by omega), Rat.mkRat_eq_div]
    have hbn : ((b.num : ℚ)) ≠ 0 := by
      exact_mod_cast (by omega : b.num ≠ 0)
    have htn : (((-b.num).toNat : ℚ)) = -(b.num : ℚ) := by
      have : ((-b.num).toNat : Int) = -b.num := Int.toNat_of_nonneg (by omega)
      exact_mod_cast this
    push_cast
    rw [htn]
    rw [show a / b = (a.num / a.den) / (b.num / b.den) by
      rw [Rat.num_div_den, Rat.num_div_den]]
    field_simp
  · have hb0 : b = 0 := Rat.num_eq_zero.mp hn
    subst hb0
    simp [qdiv, mkRat]
  · rw [qdiv, if_pos (by omega), Rat.mkRat_eq_div]
    have hbn : ((b.num : ℚ)) ≠ 0 := by
      exact_mod_cast (by omega : b.num ≠ 0)
    have htn : ((b.num.toNat : ℚ)) = (b.num : ℚ) := by
      have : (b.num.toNat : Int) = b.num := Int.toNat_of_nonneg (by omega)
      exact_mod_cast this
    push_cast
    rw [htn]
    rw [show a / b = (a.num / a.den) / (b.num / b.den) by
      rw [Rat.num_div_den, Rat.num_div_den]]
    field_simp

theorem qabs_eq (a : ℚ) : qabs a = |a| := by
  rw [qabs]
  by_cases h : a.num < 0
  · rw [if_pos h, qneg_eq]
    have h2 : ¬ (0 ≤ a) := fun hc => absurd ((@Rat.num_nonneg a).mpr hc) (by omega)
    rw [abs_of_neg (not_le.mp h2)]
  · rw [if_neg h]
    have h2 : 0 ≤ a := (@Rat.num_nonneg a).mp (by omega)
    rw [abs_of_nonneg h2]

theorem qmax_eq (a b : ℚ) : qmax a b = max a b := by
  rw [qmax, max_def]

theorem imax_eq (a b : Int) : imax a b = max a b := by
  rw [imax, max_def]

/-- Lowercase an ASCII letter, mirroring Rust `u8::to_ascii_lowercase` at the
character level (valid UTF-8 makes the byte-level and character-level views agree). -/
def lowerChar (c : Char) : Char :=
  if 65 ≤ c.toNat ∧ c.toNat ≤ 90 then Char.ofNat (c.toNat + 32) else c

/-- Case-insensitive ASCII equality of character lists, mirroring `eq_ascii_ci`. -/
def eqCI (a b : List Char) : Bool := a.map lowerChar == b.map lowerChar

/-- ASCII whitespace test; Rust `str::trim` uses Unicode whitespace, of which
only the ASCII subset is modelled. -/
def isWS (c : Char) : Bool := c == ' ' || c == '\t' || c == '\r' || c == '\n'

/-- Trim whitespace from both ends, mirroring Rust `str::trim`. -/
def trimChars (l : List Char) : List Char :=
  ((l.dropWhile isWS).reverse.dropWhile isWS).reverse

/-- Trim `"` characters from both ends, mirroring Rust `str::trim_matches('"')`. -/
def trimQuotes (l : List Char) : List Char :=
  ((l.dropWhile (fun c => c == '"')).reverse.dropWhile (fun c => c == '"')).reverse

/-- Split a character list at every occurrence of a separator, mirroring
Rust `str::split`; always returns at least one (possibly empty) piece. -/
def splitChar (sep : Char) : List Char → List (List Char)
  | [] => [[]]
  | c :: rest =>
    match splitChar sep rest with
    | [] => [[]]
    | g :: gs => if c == sep then [] :: g :: gs else (c :: g) :: gs

/-- Split at the first occurrence of a separator, mirroring Rust `str::split_once`. -/
def splitOnceChar (sep : Char) : List Char → Option (List Char × List Char)
  | [] => none
  | c :: rest =>
    if c == sep then some ([], rest)
    else (splitOnceChar sep rest).map (fun p => (c :: p.1, p.2))

/-- Strip one trailing carriage return, as Rust `str::lines` does per line. -/
def stripCR (l : List Char) : List Char :=
  if l.getLast? == some '\r' then l.dropLast else l

/-- Split text into lines, mirroring Rust `str::lines`: split on a newline,
drop the final empty piece produced by a trailing newline, strip one
trailing carriage return per line. -/
def linesOf (s : String) : List (List Char) :=
  if s.data.isEmpty then []
  else
    let parts := splitChar '\n' s.data
    let parts := if s.data.getLast? == some '\n' then parts.dropLast else parts
    parts.map stripCR

/-- Get the n-th comma-separated field of a line, mirroring `csv_field`. -/
def csvField (l : List Char) (n : Nat) : Option (List Char) :=
  (splitChar ',' l).get? n

/-- Count comma-separated fields of a line, mirroring `csv_field_count`. -/
def csvFieldCount (l : List Char) : Nat :=
  if l.isEmpty then 0 else (splitChar ',' l).length

/-- Value of a non-empty all-digit character list, otherwise `none`. -/
def parseNatDigits (l : List Char) : Option Nat :=
  if l.isEmpty then none
  else
    l.foldl
      (fun acc c =>
        match acc with
        | none => none
        | some n => if c.isDigit then some (n * 10 + (c.toNat - 48)) else none)
      (some 0)

/-- Parse a Rust `i32`, mirroring `str::parse::<i32>`: optional sign, at least
one digit, nothing else, and the value must fit in 32-bit two's complement. -/
def parseI32 (l : List Char) : Option Int :=
  let signDigits : Int × List Char :=
    match l with
    | '+' :: rest => (1, rest)
    | '-' :: rest => (-1, rest)
    | _ => (1, l)
  match parseNatDigits signDigits.2 with
  | none => none
  | some n =>
    let v : Int := signDigits.1 * n
    if -(2 ^ 31) ≤ v ∧ v ≤ 2 ^ 31 - 1 then some v else none

/-- Take the leading run of digits and the remainder. -/
def spanDigits (l : List Char) : List Char × List Char :=
  (l.takeWhile Char.isDigit, l.dropWhile Char.isDigit)

/-- Value of a digit list as a natural number (empty list gives 0). -/
def digitsVal (l : List Char) : Nat :=
  l.foldl (fun n c => n * 10 + (c.toNat - 48)) 0

/-- Apply an optional decimal exponent suffix to a rational mantissa. -/
def applyExpPart (v : ℚ) : List Char → Option ℚ
  | [] => some v
  | e :: rest =>
    if e == 'e' || e == 'E' then
      let signDigits : Bool × List Char :=
        match rest with
        | '+' :: r => (false, r)
        | '-' :: r => (true, r)
        | _ => (false, rest)
      let ds := signDigits.2
      if ds.isEmpty || !ds.all Char.isDigit then none
      else
        let ex := digitsVal ds
        if signDigits.1 then some (qdiv v (mkRat ((10 : Int) ^ ex) 1))
        else some (qmul v (mkRat ((10 : Int) ^ ex) 1))
    else none

/-- Parse a Rust `f64` literal of the form `sign? digits* (. digits*)? (e sign? digits)?`
with at least one mantissa digit, as an exact rational. Rust also accepts
`inf`, `infinity` and `nan`, which have no rational counterpart and are not
modelled; `f64` rounding of the decimal literal is likewise not modelled. -/
def parseRat (l : List Char) : Option ℚ :=
  let signRest : Int × List Char :=
    match l with
    | '+' :: rest => (1, rest)
    | '-' :: rest => (-1, rest)
    | _ => (1, l)
  let ip := spanDigits signRest.2
  match ip.2 with
  | '.' :: rest2 =>
    let fp := spanDigits rest2
    if ip.1.isEmpty && fp.1.isEmpty then none
    else
      let m : Int := signRest.1 * (digitsVal ip.1 * 10 ^ fp.1.length + digitsVal fp.1)
      applyExpPart (mkRat m ((10 : Nat) ^ fp.1.length)) fp.2
  | _ =>
    if ip.1.isEmpty then none
    else applyExpPart (mkRat (signRest.1 * digitsVal ip.1) 1) ip.2

/-- Check whether a pattern list is a prefix of another list. -/
def leadSegMatch (pat l : List Char) : Bool :=
  match pat, l with
  | [], _ => true
  | _ :: _, [] => false
  | a :: as, b :: bs => a == b && leadSegMatch as bs

/-- Check whether a pattern occurs as a contiguous sublist, mirroring Rust
`str::contains` on valid UTF-8 (byte search and character search agree). -/
def listContains (hay pat : List Char) : Bool :=
  if leadSegMatch pat hay then true
  else
    match hay with
    | [] => false
    | _ :: rest => listContains rest pat

/-- Lowercase a whole string, mirroring `str::to_ascii_lowercase`. -/
def lowerStr (s : String) : String := String.mk (s.data.map lowerChar)

/-- Substring test on strings, mirroring Rust `String::contains(&str)`. -/
def strContains (hay pat : String) : Bool := listContains hay.data pat.data

/-- Metadata extracted from one beatmap file, mirroring `ParsedMetadata`
(`star_rating` is a reserved sentinel, never computed by the parser). -/
structure ParsedMetadata where
  title : String
  artist : String
  creator : String
  version : String
  mode : Int
  audio : String
  background : String
  beatmapSetID : String
  previewTime : Int
  starRating : ℚ
deriving DecidableEq

/-- A break period, mirroring `TimeRange` (times in milliseconds). -/
structure TimeRange where
  start : Int
  finish : Int
deriving DecidableEq

/-- Section state of the line parser, mirroring `OsuSection`. -/
inductive OsuSection where
  | NoSection
  | General
  | Editor
  | Metadata
  | Difficulty
  | Events
  | TimingPoints
  | HitObjects
  | Other
deriving DecidableEq

/-- Map a section header to a state, mirroring `OsuSection::from_header`. -/
def OsuSection.fromHeader (h : List Char) : OsuSection :=
  if eqCI h "General".data then OsuSection.General
  else if eqCI h "Editor".data then OsuSection.Editor
  else if eqCI h "Metadata".data then OsuSection.Metadata
  else if eqCI h "Difficulty".data then OsuSection.Difficulty
  else if eqCI h "Events".data then OsuSection.Events
  else if eqCI h "TimingPoints".data then OsuSection.TimingPoints
  else if eqCI h "HitObjects".data then OsuSection.HitObjects
  else OsuSection.Other

/-- Result of parsing one beatmap file, mirroring `ParsedOsu`. -/
structure ParsedOsu where
  metadata : ParsedMetadata
  hitStarts : List Int
  hitEnds : List Int
  breakPeriods : List TimeRange
  bookmarks : List Int
deriving DecidableEq

/-- Internal state of the single pass of `parse_osu_content` over the lines. -/
structure PState where
  metadata : ParsedMetadata
  sect : OsuSection
  sliderMultiplier : ℚ
  timingPoints : List (Int × ℚ × Bool)
  hitStarts : List Int
  hitEnds : List Int
  hitTypes : List Int
  breakPeriods : List TimeRange
  bookmarks : List Int
deriving DecidableEq

/-- Comment-line test, mirroring the `//` check in `parse_osu_content`. -/
def isCommentLine (t : List Char) : Bool :=
  match t with
  | '/' :: '/' :: _ => true
  | _ => false

/-- Section-header test, mirroring the `[`…`]` check in `parse_osu_content`. -/
def isHeaderLine (t : List Char) : Bool :=
  t.head? == some '[' && t.getLast? == some ']'

/-- Text between the header brackets. -/
def innerHeader (t : List Char) : List Char := (t.drop 1).dropLast

/-- Last `n` characters of a list. -/
def lastN (n : Nat) (l : List Char) : List Char := l.drop (l.length - n)

/-- Image-extension test, mirroring `is_image_ext`. The Rust code slices the
last 4 or 5 bytes and panics when that slice splits a UTF-8 character; on
every input where it does not panic it agrees with this character-level test. -/
def isImageExt (cs : List Char) : Bool :=
  4 ≤ cs.length &&
  (eqCI (lastN 4 cs) ".jpg".data || eqCI (lastN 4 cs) ".png".data ||
   eqCI (lastN 4 cs) ".gif".data || eqCI (lastN 4 cs) ".bmp".data ||
   (5 ≤ cs.length && (eqCI (lastN 5 cs) ".jpeg".data || eqCI (lastN 5 cs) ".webp".data)))

/-- Canonical beatmapset URL built for a positive `BeatmapSetID`. -/
def beatmapSetUrl (id : Int) : String :=
  String.mk ("https://osu.ppy.sh/beatmapsets/".data ++ Nat.toDigits 10 id.toNat)

/-- One `key: value` line of the Metadata section, mirroring the
`OsuSection::Metadata` arm of `parse_osu_content`. -/
def metadataLineUpd (m : ParsedMetadata) (t : List Char) : ParsedMetadata :=
  match splitOnceChar ':' t with
  | none => m
  | some kv =>
    let key := trimChars kv.1
    let value := trimChars kv.2
    if eqCI key "Title".data then { m with title := String.mk value }
    else if eqCI key "Artist".data then { m with artist := String.mk value }
    else if eqCI key "Creator".data then { m with creator := String.mk value }
    else if eqCI key "Version".data then { m with version := String.mk value }
    else if eqCI key "BeatmapSetID".data then
      match parseI32 value with
      | some id =>
        if 0 < id then { m with beatmapSetID := beatmapSetUrl id }
        else { m with beatmapSetID := String.mk value }
      | none => { m with beatmapSetID := String.mk value }
    else m

/-- One `key: value` line of the General section, mirroring the
`OsuSection::General` arm of `parse_osu_content`. -/
def generalLineUpd (m : ParsedMetadata) (t : List Char) : ParsedMetadata :=
  match splitOnceChar ':' t with
  | none => m
  | some kv =>
    let key := trimChars kv.1
    let value := trimChars kv.2
    if eqCI key "AudioFilename".data then { m with audio := String.mk value }
    else if eqCI key "PreviewTime".data then
      match parseI32 value with
      | some v => { m with previewTime := v }
      | none => m
    else if eqCI key "Mode".data then
      match parseI32 value with
      | some v => { m with mode := v }
      | none => m
    else m

/-- One line of the Difficulty section, mirroring the `OsuSection::Difficulty`
arm of `parse_osu_content`. -/
def difficultyLineUpd (sm : ℚ) (t : List Char) : ℚ :=
  match splitOnceChar ':' t with
  | none => sm
  | some kv =>
    if eqCI (trimChars kv.1) "SliderMultiplier".data then
      (parseRat (trimChars kv.2)).getD 1
    else sm

/-- The timing point recorded for one line of the TimingPoints section,
mirroring the `OsuSection::TimingPoints` arm of `parse_osu_content`:
`(time, beatLength, uninherited)`. -/
def timingPointOfLine (t : List Char) : Option (Int × ℚ × Bool) :=
  if 2 ≤ csvFieldCount t then
    some ((parseI32 (trimChars ((csvField t 0).getD "0".data))).getD 0,
          (parseRat (trimChars ((csvField t 1).getD "500".data))).getD 500,
          if 7 ≤ csvFieldCount t then
            ((csvField t 6).map (fun v => trimChars v == "1".data)).getD true
          else true)
  else none

/-- One line of the Events section, mirroring the `OsuSection::Events` arm of
`parse_osu_content`; updates the break list and the background filename. -/
def eventsLineUpd (breaks : List TimeRange) (bg : String) (t : List Char) :
    List TimeRange × String :=
  if 3 ≤ csvFieldCount t then
    let f0 := trimChars ((csvField t 0).getD [])
    let breaks2 :=
      if f0 == "2".data || eqCI f0 "Break".data then
        let s := (parseI32 (trimChars ((csvField t 1).getD []))).getD (-1)
        let e := (parseI32 (trimChars ((csvField t 2).getD []))).getD (-1)
        if 0 ≤ s ∧ s < e then breaks ++ [⟨s, e⟩] else breaks
      else breaks
    let bg2 :=
      if f0 == "0".data && bg.data.isEmpty then
        let candidate := trimQuotes (trimChars ((csvField t 2).getD []))
        if isImageExt candidate then String.mk candidate else bg
      else bg
    (breaks2, bg2)
  else (breaks, bg)

/-- One line of the Editor section, mirroring the `OsuSection::Editor` arm of
`parse_osu_content` (the `Bookmarks` list). -/
def editorLineUpd (bm : List Int) (t : List Char) : List Int :=
  match splitOnceChar ':' t with
  | none => bm
  | some kv =>
    if eqCI (trimChars kv.1) "Bookmarks".data then
      (splitChar ',' kv.2).filterMap (fun chunk => parseI32 (trimChars chunk))
    else bm

/-- Bit test on an `i32` value in two's complement (Euclidean division and
remainder on `Int` implement the arithmetic shift used by `obj_type & bit`). -/
def iBit (n : Int) (b : Nat) : Bool := (n / 2 ^ b) % 2 == 1

/-- The scan over recorded timing points in file order carrying
`(active_beat, active_sv)`, mirroring the slider loop of `parse_osu_content`:
points with time ≤ start update the pair, the first later point stops the scan. -/
def sliderScanAux (acc : ℚ × ℚ) (tps : List (Int × ℚ × Bool)) (start : Int) : ℚ × ℚ :=
  match tps with
  | [] => acc
  | tp :: rest =>
    if start < tp.1 then acc
    else
      sliderScanAux
        (if tp.2.2 then (tp.2.1, 1)
         else if tp.2.1 < 0 then (acc.1, qdiv (-100) tp.2.1) else acc)
        rest start

/-- Slider end time, mirroring the slider arm of `parse_osu_content`:
`start + floor(max(0, length / (mult * 100 * sv) * beat * slides))`.
The saturating `as i32` cast of the Rust source is not modelled. -/
def sliderEndTime (mult : ℚ) (tps : List (Int × ℚ × Bool)) (start : Int)
    (slides len : ℚ) : Int :=
  let absv := sliderScanAux (qdiv 60000 120, 1) tps start
  let duration := qmul (qmul (qdiv len (qmul (qmul mult 100) absv.2)) absv.1) slides
  start + Rat.floor (qmax duration 0)

/-- Start time of a hit-object line (field 2). -/
def hitStartOfLine (t : List Char) : Int :=
  (parseI32 (trimChars ((csvField t 2).getD "0".data))).getD 0

/-- Type bitmask of a hit-object line (field 3). -/
def hitTypeOfLine (t : List Char) : Int :=
  (parseI32 (trimChars ((csvField t 3).getD "0".data))).getD 0

/-- End time of a hit-object line before the final `max` clamp, mirroring the
slider / spinner / mania-hold arms of `parse_osu_content` in their priority
order. -/
def hitObjectEndTime (mult : ℚ) (tps : List (Int × ℚ × Bool)) (t : List Char) : Int :=
  let fc := csvFieldCount t
  let start := hitStartOfLine t
  let ty := hitTypeOfLine t
  if iBit ty 1 then
    if 8 ≤ fc then
      let slides := (parseRat (trimChars ((csvField t 6).getD "1".data))).getD 1
      let len := (parseRat (trimChars ((csvField t 7).getD "0".data))).getD 0
      sliderEndTime mult tps start slides len
    else start
  else if iBit ty 3 then
    if 6 ≤ fc then (parseI32 (trimChars ((csvField t 5).getD []))).getD start
    else start
  else if iBit ty 7 then
    if 6 ≤ fc then
      ((splitChar ':' ((csvField t 5).getD [])).headD [] |> trimChars |> parseI32).getD start
    else start
  else start

/-- Apply a function to the last element of a list, mirroring `last_mut`. -/
def mapLast (f : Int → Int) : List Int → List Int
  | [] => []
  | [a] => [f a]
  | a :: b :: rest => a :: mapLast f (b :: rest)

/-- One line of the HitObjects section, mirroring the `OsuSection::HitObjects`
arm of `parse_osu_content`: possibly extend the previous slider end to the
current start, then push `(start, max end start, type)`. -/
def hitObjectUpd (mult : ℚ) (tps : List (Int × ℚ × Bool))
    (starts ends types : List Int) (t : List Char) :
    List Int × List Int × List Int :=
  if csvFieldCount t < 4 then (starts, ends, types)
  else
    let start := hitStartOfLine t
    let endT := hitObjectEndTime mult tps t
    let ends2 :=
      if (types.getLast?.map (fun pt => iBit pt 1)).getD false then
        mapLast (fun pe => if pe < start then start else pe) ends
      else ends
    (starts ++ [start], ends2 ++ [imax endT start], types ++ [hitTypeOfLine t])

/-- Process one line of the file, mirroring the body of the `for line` loop of
`parse_osu_content`. -/
def processLine (st : PState) (line : List Char) : PState :=
  let t := trimChars line
  if t.isEmpty then st
  else if isCommentLine t then st
  else if isHeaderLine t then { st with sect := OsuSection.fromHeader (innerHeader t) }
  else
    match st.sect with
    | OsuSection.Metadata => { st with metadata := metadataLineUpd st.metadata t }
    | OsuSection.General => { st with metadata := generalLineUpd st.metadata t }
    | OsuSection.Difficulty =>
        { st with sliderMultiplier := difficultyLineUpd st.sliderMultiplier t }
    | OsuSection.TimingPoints =>
        { st with timingPoints := st.timingPoints ++ (timingPointOfLine t).toList }
    | OsuSection.Events =>
        let r := eventsLineUpd st.breakPeriods st.metadata.background t
        { st with breakPeriods := r.1, metadata := { st.metadata with background := r.2 } }
    | OsuSection.Editor => { st with bookmarks := editorLineUpd st.bookmarks t }
    | OsuSection.HitObjects =>
        let r := hitObjectUpd st.sliderMultiplier st.timingPoints
          st.hitStarts st.hitEnds st.hitTypes t
        { st with hitStarts := r.1, hitEnds := r.2.1, hitTypes := r.2.2 }
    | _ => st

/-- Post-pass normalization, mirroring `normalize_metadata`. -/
def normalizeMetadata (m : ParsedMetadata) : ParsedMetadata :=
  { m with
    title := if m.title.data.isEmpty then "Unknown Title" else m.title,
    artist := if m.artist.data.isEmpty then "Unknown Artist" else m.artist,
    creator := if m.creator.data.isEmpty then "Unknown Creator" else m.creator,
    version := if m.version.data.isEmpty then "Unknown Version" else m.version,
    beatmapSetID := if m.beatmapSetID.data.isEmpty then "Unknown" else m.beatmapSetID,
    mode := if m.mode < 0 then 0 else if m.mode > 3 then 3 else m.mode }

/-- Initial parser state of `parse_osu_content`. -/
def initState : PState :=
  { metadata :=
      { title := "", artist := "", creator := "", version := "", mode := 0,
        audio := "", background := "", beatmapSetID := "", previewTime := -1,
        starRating := -1 },
    sect := OsuSection.NoSection, sliderMultiplier := 1, timingPoints := [],
    hitStarts := [], hitEnds := [], hitTypes := [], breakPeriods := [], bookmarks := [] }

/-- The full line pass of `parse_osu_content`, before normalization. -/
def parseOsuState (content : String) : PState :=
  (linesOf content).foldl processLine initState

/-- The parser `parse_osu_content`: text to structured data. -/
def parseOsuContent (content : String) : ParsedOsu :=
  let st := parseOsuState content
  { metadata := normalizeMetadata st.metadata,
    hitStarts := st.hitStarts, hitEnds := st.hitEnds,
    breakPeriods := st.breakPeriods, bookmarks := st.bookmarks }

/-- Loop of `parse_header_creator_and_version` over the remaining lines with
state `(inMeta, creator, version)`, including both early-stop breaks of the
Rust source: at a non-Metadata section header once both values are non-empty,
and right after a key line once both values are non-empty. -/
def phcvAux : List (List Char) → Bool → List Char → List Char → List Char × List Char
  | [], _, c, v => (c, v)
  | line :: rest, inMeta, c, v =>
    let t := trimChars line
    if t.isEmpty then phcvAux rest inMeta c v
    else if isCommentLine t then phcvAux rest inMeta c v
    else if isHeaderLine t then
      let inMeta2 := eqCI (innerHeader t) "Metadata".data
      if !inMeta2 && !c.isEmpty && !v.isEmpty then (c, v)
      else phcvAux rest inMeta2 c v
    else if inMeta then
      match splitOnceChar ':' t with
      | some kv =>
        let key := trimChars kv.1
        let value := trimChars kv.2
        let cv :=
          if eqCI key "Creator".data then (value, v)
          else if eqCI key "Version".data then (c, value)
          else (c, v)
        if !cv.1.isEmpty && !cv.2.isEmpty then cv
        else phcvAux rest inMeta cv.1 cv.2
      | none => phcvAux rest inMeta c v
    else phcvAux rest inMeta c v

/-- The header extractor `parse_header_creator_and_version`: first-KB prefix
text to `(creator, version)`. -/
def parseHeaderCreatorAndVersion (content : String) : String × String :=
  let r := phcvAux (linesOf content) false [] []
  (String.mk r.1, String.mk r.2)

/-- The same scan without the two early-stop breaks, written from the claim
that the early stop is a pure optimization over scanning the entire prefix. -/
def phcvNoStopAux : List (List Char) → Bool → List Char → List Char → List Char × List Char
  | [], _, c, v => (c, v)
  | line :: rest, inMeta, c, v =>
    let t := trimChars line
    if t.isEmpty then phcvNoStopAux rest inMeta c v
    else if isCommentLine t then phcvNoStopAux rest inMeta c v
    else if isHeaderLine t then
      phcvNoStopAux rest (eqCI (innerHeader t) "Metadata".data) c v
    else if inMeta then
      match splitOnceChar ':' t with
      | some kv =>
        let key := trimChars kv.1
        let value := trimChars kv.2
        let cv :=
          if eqCI key "Creator".data then (value, v)
          else if eqCI key "Version".data then (c, value)
          else (c, v)
        phcvNoStopAux rest inMeta cv.1 cv.2
      | none => phcvNoStopAux rest inMeta c v
    else phcvNoStopAux rest inMeta c v

/-- Scan of the entire prefix with no early stop, for comparison with
`parseHeaderCreatorAndVersion`. -/
def phcvNoStop (content : String) : String × String :=
  let r := phcvNoStopAux (linesOf content) false [] []
  (String.mk r.1, String.mk r.2)

/-- Syntactic test for a `key: value` line (non-empty, not a comment, not a
section header) whose key is case-insensitively equal to `name`; used to
count how often a prefix assigns a given metadata key. -/
def keyLineCI (name : List Char) (line : List Char) : Bool :=
  let t := trimChars line
  !t.isEmpty && !isCommentLine t && !isHeaderLine t &&
    (match splitOnceChar ':' t with
     | some kv => eqCI (trimChars kv.1) name
     | none => false)

/-- The filesystem environment of one scan: validity of the root, the walker
output (path and mtime in ms, as `find_osu_files_with_mtime` returns), and the
two reads a worker performs — the full file as `read_to_string` (which fails
on invalid UTF-8) and the lossily decoded first 8 KB. I/O failure is `none`. -/
structure FS where
  rootOk : Bool
  walk : List (String × ℚ)
  readFull : String → Option String
  readHeader : String → Option String

/-- A per-file scan result, mirroring `ScanFilePayload`. -/
structure ScanFilePayload where
  filePath : String
  mtimeMs : ℚ
  unchanged : Option Bool
  metadata : Option ParsedMetadata
  hitStarts : Option (List Int)
  hitEnds : Option (List Int)
  breakPeriods : Option (List TimeRange)
  bookmarks : Option (List Int)
deriving DecidableEq

/-- The payload emitted on the unchanged fast path of `scan_single_osu_file`. -/
def unchangedPayload (path : String) (mtime : ℚ) : ScanFilePayload :=
  { filePath := path, mtimeMs := mtime, unchanged := some true,
    metadata := none, hitStarts := none, hitEnds := none,
    breakPeriods := none, bookmarks := none }

/-- The payload emitted on the full-parse path of `scan_single_osu_file`. -/
def fullPayload (path : String) (mtime : ℚ) (parsed : ParsedOsu) : ScanFilePayload :=
  { filePath := path, mtimeMs := mtime, unchanged := none,
    metadata := some parsed.metadata, hitStarts := some parsed.hitStarts,
    hitEnds := some parsed.hitEnds, breakPeriods := some parsed.breakPeriods,
    bookmarks := some parsed.bookmarks }

/-- Mapper match used by both scan paths: any term is a substring of the
lowercased creator or the lowercased version. -/
def mapperMatch (mappers : List String) (cv : String × String) : Bool :=
  mappers.any (fun m => strContains (lowerStr cv.1) m || strContains (lowerStr cv.2) m)

/-- The full-parse path of `scan_single_osu_file`: read the whole file, parse
it, apply the mapper filter to the parsed creator and version, and emit the
full payload. -/
def scanFullPath (fs : FS) (mappers : List String) (filePath : String) (mtime : ℚ) :
    Option ScanFilePayload :=
  match fs.readFull filePath with
  | none => none
  | some content =>
    let parsed := parseOsuContent content
    if !mappers.isEmpty &&
       !mapperMatch mappers (parsed.metadata.creator, parsed.metadata.version) then none
    else some (fullPayload filePath mtime parsed)

/-- One file of a scan, mirroring `scan_single_osu_file`: the cached fast path
applies when the cached mtime differs from the current one by less than 0.5 ms,
otherwise the file is fully re-parsed. -/
def scanSingleOsuFile (fs : FS) (known : String → Option ℚ) (mappers : List String)
    (filePath : String) (mtime : ℚ) : Option ScanFilePayload :=
  match known filePath with
  | some cached =>
    if qabs (qsub cached mtime) < mkRat 1 2 then
      if !mappers.isEmpty then
        match fs.readHeader filePath with
        | some header =>
          if mapperMatch mappers (parseHeaderCreatorAndVersion header) then
            some (unchangedPayload filePath mtime)
          else none
        | none => none
      else some (unchangedPayload filePath mtime)
    else scanFullPath fs mappers filePath mtime
  | none => scanFullPath fs mappers filePath mtime

/-- Header-only filter check, mirroring `file_matches_mapper`. -/
def fileMatchesMapper (fs : FS) (filePath : String) (mappers : List String) : Bool :=
  match fs.readHeader filePath with
  | some header => mapperMatch mappers (parseHeaderCreatorAndVersion header)
  | none => false

/-- Filter-term list built from the raw filter string, mirroring the
`split(',') → trim → to_ascii_lowercase → drop empties` pipeline of
`scan_directory_streaming`. -/
def parseMappers (raw : String) : List String :=
  ((splitChar ',' raw.data).map (fun s => String.mk ((trimChars s).map lowerChar))).filter
    (fun s => !s.data.isEmpty)

/-- The known-files map with the `unwrap_or_default` of the scan entry points. -/
def knownOf (k : Option (String → Option ℚ)) : String → Option ℚ :=
  k.getD (fun _ => none)

/-- The filter terms with the `unwrap_or_default` of the scan entry points. -/
def mappersOf (m : Option String) : List String := parseMappers (m.getD "")

/-- The progress denominator of `scan_directory_streaming`: with an active
filter, the number of candidates passing the header-only check, otherwise the
candidate count. -/
def totalForProgress (fs : FS) (mappers : List String) : Nat :=
  if mappers.isEmpty then fs.walk.length
  else (fs.walk.filter (fun e => fileMatchesMapper fs e.1 mappers)).length

/-- Fuel-driven chunking; with fuel at least the list length and a positive
chunk size it produces exactly the chunks of Rust `slice::chunks`. -/
def chunksByAux (k : Nat) : Nat → List α → List (List α)
  | 0, _ => []
  | _ + 1, [] => []
  | fuel + 1, a :: l => (a :: l).take k :: chunksByAux k fuel ((a :: l).drop k)

/-- Contiguous chunks of size `k` (last one possibly shorter), mirroring Rust
`slice::chunks(k)`; it also models the worker flush discipline, which emits a
batch exactly when 50 results are buffered and any non-empty remainder at
chunk end. -/
def chunksBy (k : Nat) (l : List α) : List (List α) := chunksByAux k l.length l

/-- Worker thread cap, mirroring `clamp(2 * parallelism, 4, 32)`. -/
def maxThreads (par : Nat) : Nat := min 32 (max 4 (par * 2))

/-- Worker count of one scan, mirroring `max_threads.min(osu_entries.len())`. -/
def workerCountOf (fs : FS) (par : Nat) : Nat := min (maxThreads par) fs.walk.length

/-- Chunk size of one scan, mirroring `osu_entries.len().div_ceil(worker_count)`. -/
def chunkSizeOf (fs : FS) (par : Nat) : Nat :=
  (fs.walk.length + workerCountOf fs par - 1) / workerCountOf fs par

/-- Per-worker batch lists of one streaming scan: the walker output is split
into contiguous chunks of size `ceil(n / workerCount)`, one worker each; a
worker turns its chunk into included results in order and flushes them in
batches of 50 plus a final remainder. -/
def streamWorkerLists (fs : FS) (known : String → Option ℚ) (mappers : List String)
    (par : Nat) : List (List (List ScanFilePayload)) :=
  (chunksBy (chunkSizeOf fs par) fs.walk).map
    (fun ch => chunksBy 50 (ch.filterMap (fun e => scanSingleOsuFile fs known mappers e.1 e.2)))

/-- All batches of one streaming scan, in the canonical schedule that lists
each worker's batches in worker order; batch indices are claimed from a
mutex-guarded counter, so under any interleaving the indices are `0, 1, 2, …`
in emission order. -/
def streamBatches (fs : FS) (m : Option String) (k : Option (String → Option ℚ))
    (par : Nat) : List (List ScanFilePayload) :=
  (streamWorkerLists fs (knownOf k) (mappersOf m) par).flatten

/-- An event emitted by the streaming scan. -/
inductive ScanEvent where
  | batch (files : List ScanFilePayload) (directory : String)
      (batchIndex : Nat) (totalFiles : Nat)
  | complete (directory : String) (totalFiles : Nat)
deriving DecidableEq

/-- The totals carried by the completion events of a trace. -/
def completionTotals (tr : List ScanEvent) : List Nat :=
  tr.filterMap (fun e =>
    match e with
    | ScanEvent.complete _ n => some n
    | _ => none)

/-- The streaming scan `scan_directory_streaming` as the event trace it emits:
an invalid or empty root short-circuits to a single zero completion; otherwise
every batch event carries the progress denominator and the single final
completion carries the accumulated emitted count. -/
def scanDirectoryStreaming (fs : FS) (dirPath : String) (m : Option String)
    (k : Option (String → Option ℚ)) (par : Nat) : List ScanEvent :=
  if !fs.rootOk then [ScanEvent.complete dirPath 0]
  else if fs.walk.isEmpty then [ScanEvent.complete dirPath 0]
  else
    let bs := streamBatches fs m k par
    bs.enum.map (fun p => ScanEvent.batch p.2 dirPath p.1 (totalForProgress fs (mappersOf m)))
      ++ [ScanEvent.complete dirPath (bs.map List.length).sum]

/-- The synchronous payload, mirroring `ScanDirectoryPayload`. -/
structure ScanDirectoryPayload where
  files : List ScanFilePayload
  directory : String
deriving DecidableEq

/-- Insert a payload into a path-sorted list. -/
def insertByPath (x : ScanFilePayload) : List ScanFilePayload → List ScanFilePayload
  | [] => [x]
  | y :: rest =>
    if x.filePath ≤ y.filePath then x :: y :: rest else y :: insertByPath x rest

/-- Sort payloads ascending by path, modelling `sort_unstable_by` on `file_path`. -/
def sortByPath : List ScanFilePayload → List ScanFilePayload
  | [] => []
  | x :: rest => insertByPath x (sortByPath rest)

/-- The synchronous scan `scan_directory_internal`: same discovery and per-file
processing, results collected and sorted ascending by path. -/
def scanDirectoryInternal (fs : FS) (dirPath : String) (m : Option String)
    (k : Option (String → Option ℚ)) (par : Nat) : ScanDirectoryPayload :=
  if !fs.rootOk then { files := [], directory := dirPath }
  else if fs.walk.isEmpty then { files := [], directory := dirPath }
  else
    let files := ((chunksBy (chunkSizeOf fs par) fs.walk).map
      (fun ch => ch.filterMap
        (fun e => scanSingleOsuFile fs (knownOf k) (mappersOf m) e.1 e.2))).flatten
    { files := sortByPath files, directory := dirPath }

/-- Timing-point scan written from the specification text: activeBeat starts
at 500 and activeSV at 1.0; every uninherited point with time ≤ start resets
`(activeBeat, activeSV) := (beatLength, 1.0)`; every inherited point with
time ≤ start and beatLength < 0 sets `activeSV := -100 / beatLength`; the
scan stops at the first point with time > start. -/
def specSliderScan (acc : ℚ × ℚ) (tps : List (Int × ℚ × Bool)) (start : Int) : ℚ × ℚ :=
  match tps with
  | [] => acc
  | tp :: rest =>
    if start < tp.1 then acc
    else
      specSliderScan
        (if tp.2.2 then (tp.2.1, 1)
         else if tp.2.1 < 0 then (acc.1, -100 / tp.2.1) else acc)
        rest start

/-- Slider end time written from the specification text:
`end = start + floor(max(0, length / (sliderMultiplier * 100 * activeSV) * activeBeat * slides))`. -/
def specSliderEnd (mult : ℚ) (tps : List (Int × ℚ × Bool)) (start : Int)
    (slides len : ℚ) : Int :=
  let absv := specSliderScan (500, 1) tps start
  start + Rat.floor (max 0 (len / (mult * 100 * absv.2) * absv.1 * slides))

/-- Concrete chart of the specification slider example: sliderMultiplier 1.4,
one uninherited timing point at time 0 with beatLength 500, one slider at
start 1000 with 2 slides and length 280. -/
def c1chart : String :=
  "osu file format v14\n\n[Difficulty]\nSliderMultiplier:1.4\n\n[TimingPoints]\n0,500,4,2,0,100,1,0\n\n[HitObjects]\n256,192,1000,2,0,L|300:200,2,280"

/-- Concrete chart with one timing-point line whose seventh field is "0". -/
def tpZeroChart : String := "[TimingPoints]\n0,500,4,2,0,100,0,0"

/-- Concrete chart with one break event. -/
def breakChart : String := "[Events]\n2,10,20"

/-- Concrete header prefix that assigns Creator twice: the early stop of the
header extractor fires inside the Metadata section after `Version:B`. -/
def c9dup : String := "[Metadata]\nCreator:A\nVersion:B\nCreator:C"

/-- Concrete header prefix that assigns Creator and Version once each. -/
def c9once : String := "[General]\nAudioFilename: a.mp3\n[Metadata]\nTitle:T\nCreator:A\nVersion:B\n[Events]\n0,0,x"

/-- Filesystem fixture whose single candidate file has no metadata at all:
its header-extracted creator and version are empty, while the full parse
normalizes them to the `Unknown` placeholders. -/
def fsA : FS :=
  { rootOk := true, walk := [("a", 0)],
    readFull := fun _ => some "x", readHeader := fun _ => some "x" }

/-- Filesystem fixture whose single candidate file names creator Bob within
the header, so the header check and the full parse agree. -/
def fsB : FS :=
  { rootOk := true, walk := [("a", 0)],
    readFull := fun _ => some "[Metadata]\nCreator:Bob\nVersion:Hard",
    readHeader := fun _ => some "[Metadata]\nCreator:Bob\nVersion:Hard" }

/-- Filesystem fixture for the filter example: creator BlueDragon, version Insane. -/
def fsC : FS :=
  { rootOk := true, walk := [("a", 0)],
    readFull := fun _ => some "[Metadata]\nCreator:BlueDragon\nVersion:Insane",
    readHeader := fun _ => some "[Metadata]\nCreator:BlueDragon\nVersion:Insane" }

/-- Invalid-root fixture. -/
def fsBad : FS := { rootOk := false, walk := [], readFull := fun _ => none, readHeader := fun _ => none }

/-- Cache fixture mapping path "a" to mtime 0. -/
def knownA : String → Option ℚ := fun p => if p = "a" then some 0 else none

theorem sliderScan_eq (tps : List (Int × ℚ × Bool)) :
    ∀ (acc : ℚ × ℚ) (start : Int), sliderScanAux acc tps start = specSliderScan acc tps start := by
  induction tps with
  | nil => intro acc start; rfl
  | cons tp rest ih =>
    intro acc start
    simp only [sliderScanAux, specSliderScan]
    split
    · rfl
    · rw [qdiv_eq]
      exact ih _ _

/-- C1: the slider end time is derived by scanning the timing points in file
order with activeBeat initially 500 and activeSV initially 1.0, updating at
points with time ≤ start and stopping at the first later point, with
`end = start + floor(max(0, length / (mult * 100 * sv) * beat * slides))`;
on the concrete example chart (multiplier 1.4, uninherited point at 0 with
beat 500, slider at 1000 with 2 slides and length 280) the derived end is 3000. -/
theorem c1_slider_end_spec :
    (∀ (mult : ℚ) (tps : List (Int × ℚ × Bool)) (start : Int) (slides len : ℚ),
      sliderEndTime mult tps start slides len = specSliderEnd mult tps start slides len)
    ∧ (parseOsuContent c1chart).hitStarts = [1000]
    ∧ (parseOsuContent c1chart).hitEnds = [3000] := by
  refine ⟨?_, by decide, by decide⟩
  intro mult tps start slides len
  unfold sliderEndTime specSliderEnd
  have hinit : qdiv (60000 : ℚ) 120 = (500 : ℚ) := by rw [qdiv_eq]; norm_num
  rw [hinit, sliderScan_eq tps ((500 : ℚ), (1 : ℚ)) start]
  simp only [qmul_eq, qdiv_eq, qmax_eq]
  rw [max_comm]

theorem csvField_isSome_of_lt (t : List Char) (n : Nat) (h : n < csvFieldCount t) :
    (csvField t n).isSome := by
  unfold csvFieldCount at h
  by_cases he : t.isEmpty
  · rw [if_pos he] at h; omega
  · rw [if_neg he] at h
    unfold csvField
    rw [List.get?_eq_get h]
    rfl

/-- C4 counterexample: a timing-point line with seven or more fields whose
seventh field is "0" is recorded with the uninherited flag false, where the
claim predicts true. -/
theorem c4_counterexample :
    (parseOsuState tpZeroChart).timingPoints = [(0, 500, false)]
    ∧ (parseOsuState tpZeroChart).timingPoints ≠ [(0, 500, true)] := by
  exact ⟨by decide, by decide⟩

/-- C4 (amended): on a timing-point line with at least two fields the recorded
point is `(time, beatLength, uninherited)` where the flag is `field6 == "1"`
when the line has at least seven fields and true when field 6 is absent; lines
with fewer than two fields record nothing, and in the TimingPoints section the
point is appended at the end, in file order. -/
theorem c4_amended :
    (∀ t : List Char, 2 ≤ csvFieldCount t →
      timingPointOfLine t =
        some ((parseI32 (trimChars ((csvField t 0).getD "0".data))).getD 0,
              (parseRat (trimChars ((csvField t 1).getD "500".data))).getD 500,
              if 7 ≤ csvFieldCount t then trimChars ((csvField t 6).getD []) == "1".data
              else true))
    ∧ (∀ t : List Char, csvFieldCount t < 2 → timingPointOfLine t = none)
    ∧ (∀ (st : PState) (line : List Char), st.sect = OsuSection.TimingPoints →
        (trimChars line).isEmpty = false → isCommentLine (trimChars line) = false →
        isHeaderLine (trimChars line) = false →
        (processLine st line).timingPoints =
          st.timingPoints ++ (timingPointOfLine (trimChars line)).toList) := by
  refine ⟨?_, ?_, ?_⟩
  · intro t h2
    unfold timingPointOfLine
    rw [if_pos h2]
    by_cases h7 : 7 ≤ csvFieldCount t
    · rw [if_pos h7, if_pos h7]
      have hs := csvField_isSome_of_lt t 6 (by omega)
      obtain ⟨v, hv⟩ := Option.isSome_iff_exists.mp hs
      rw [hv]
      rfl
    · rw [if_neg h7, if_neg h7]
  · intro t h2
    unfold timingPointOfLine
    rw [if_neg (by omega)]
  · intro st line hsect hne hnc hnh
    simp only [processLine, hne, hnc, hnh, Bool.false_eq_true, if_false, hsect]

theorem c4_amended_witness :
    timingPointOfLine "0,500,4,2,0,100,0,0".data =
      some ((parseI32 (trimChars ((csvField "0,500,4,2,0,100,0,0".data 0).getD "0".data))).getD 0,
            (parseRat (trimChars ((csvField "0,500,4,2,0,100,0,0".data 1).getD "500".data))).getD 500,
            if 7 ≤ csvFieldCount "0,500,4,2,0,100,0,0".data then
              trimChars ((csvField "0,500,4,2,0,100,0,0".data 6).getD []) == "1".data
            else true) :=
  c4_amended.1 "0,500,4,2,0,100,0,0".data (by decide)

/-- C10: the end-time rules use the strict priority slider over spinner over
hold; a line with the slider bit uses the slider rule regardless of the
spinner and hold bits, a slider line with fewer than 8 fields and a spinner
or hold line with fewer than 6 fields get end = start; the concrete lines
with type 138 (slider+spinner+hold) and 136 (spinner+hold) exercise the
priority. -/
theorem c10_end_time_priority (mult : ℚ) (tps : List (Int × ℚ × Bool)) (t : List Char) :
    (iBit (hitTypeOfLine t) 1 = true →
      hitObjectEndTime mult tps t =
        (if 8 ≤ csvFieldCount t then
          sliderEndTime mult tps (hitStartOfLine t)
            ((parseRat (trimChars ((csvField t 6).getD "1".data))).getD 1)
            ((parseRat (trimChars ((csvField t 7).getD "0".data))).getD 0)
        else hitStartOfLine t))
    ∧ (iBit (hitTypeOfLine t) 1 = true → csvFieldCount t < 8 →
        hitObjectEndTime mult tps t = hitStartOfLine t)
    ∧ (iBit (hitTypeOfLine t) 1 = false → iBit (hitTypeOfLine t) 3 = true →
        csvFieldCount t < 6 → hitObjectEndTime mult tps t = hitStartOfLine t)
    ∧ (iBit (hitTypeOfLine t) 1 = false → iBit (hitTypeOfLine t) 3 = false →
        iBit (hitTypeOfLine t) 7 = true → csvFieldCount t < 6 →
        hitObjectEndTime mult tps t = hitStartOfLine t)
    ∧ hitObjectEndTime 1 [] "256,192,1000,138,0,0:0,2,140".data = 2400
    ∧ hitObjectEndTime 1 [] "256,192,1000,136,0,77:99".data = 1000
    ∧ hitObjectEndTime 1 [] "256,192,1000,128,0,77:99".data = 77 := by
  refine ⟨?_, ?_, ?_, ?_, by decide, by decide, by decide⟩
  · intro h
    simp only [hitObjectEndTime, h, if_true]
  · intro h hfc
    simp only [hitObjectEndTime, h, if_true, Nat.not_le.mpr hfc, if_false]
  · intro h1 h3 hfc
    simp only [hitObjectEndTime, h1, h3, Bool.false_eq_true, if_false, if_true,
      Nat.not_le.mpr hfc]
  · intro h1 h3 h7 hfc
    simp only [hitObjectEndTime, h1, h3, h7, Bool.false_eq_true, if_false, if_true,
      Nat.not_le.mpr hfc]

theorem c10_witness :
    hitObjectEndTime 1 [] "0,0,5,2".data = hitStartOfLine "0,0,5,2".data :=
  (c10_end_time_priority 1 [] "0,0,5,2".data).2.1 (by decide) (by decide)

/-- C7: filter terms are the comma-split, trimmed, lowercased, non-empty
pieces of the filter string (so an empty or whitespace-only filter yields no
terms); a file matches iff some term is a substring of the lowercased creator
or the lowercased version; BlueDragon/Insane matches "dragon" but not "red",
and a non-matching file produces no result. -/
theorem c7_filter :
    (∀ raw : String, ∀ t ∈ parseMappers raw, t ≠ "")
    ∧ parseMappers " ,  , " = []
    ∧ parseMappers "" = []
    ∧ (∀ (ms : List String) (c v : String),
        mapperMatch ms (c, v) = true ↔
          ∃ m ∈ ms, strContains (lowerStr c) m = true ∨ strContains (lowerStr v) m = true)
    ∧ mapperMatch (parseMappers "dragon") ("BlueDragon", "Insane") = true
    ∧ mapperMatch (parseMappers "red") ("BlueDragon", "Insane") = false
    ∧ scanSingleOsuFile fsC (fun _ => none) (parseMappers "red") "a" 0 = none := by
  refine ⟨?_, by decide, by decide, ?_, by decide, by decide, by decide⟩
  · intro raw t ht
    have := (List.mem_filter.mp ht).2
    intro hcon
    subst hcon
    revert this
    decide
  · intro ms c v
    simp only [mapperMatch, List.any_eq_true, Bool.or_eq_true]

theorem c7_witness :
    ("dragon" : String) ∈ parseMappers "dragon" ∧ ("dragon" : String) ≠ "" :=
  ⟨by decide, c7_filter.1 "dragon" "dragon" (by decide)⟩

theorem cache_window_iff (cached mtime : ℚ) :
    (qabs (qsub cached mtime) < mkRat 1 2) ↔ |cached - mtime| < 1 / 2 := by
  rw [qabs_eq, qsub_eq, Rat.mkRat_eq_div]
  norm_num

/-- C3: when the cached mtime is within 0.5 ms of the current one, any result
for the file is the unchanged payload with no parse data; when the difference
is at least 0.5 ms or the path is not cached, the file goes through the full
re-parse path, whose results carry the full payload with `unchanged` unset. -/
theorem c3_cache (fs : FS) (known : String → Option ℚ) (mappers : List String)
    (path : String) (mtime cached : ℚ) :
    (known path = some cached → |cached - mtime| < 1 / 2 →
      scanSingleOsuFile fs known mappers path mtime = some (unchangedPayload path mtime)
      ∨ scanSingleOsuFile fs known mappers path mtime = none)
    ∧ (known path = some cached → 1 / 2 ≤ |cached - mtime| →
      scanSingleOsuFile fs known mappers path mtime = scanFullPath fs mappers path mtime)
    ∧ (known path = none →
      scanSingleOsuFile fs known mappers path mtime = scanFullPath fs mappers path mtime)
    ∧ (∀ p, scanFullPath fs mappers path mtime = some p →
        p.unchanged = none ∧ p.metadata.isSome = true ∧ p.hitStarts.isSome = true
        ∧ p.hitEnds.isSome = true ∧ p.breakPeriods.isSome = true
        ∧ p.bookmarks.isSome = true)
    ∧ ((unchangedPayload path mtime).unchanged = some true
        ∧ (unchangedPayload path mtime).metadata = none
        ∧ (unchangedPayload path mtime).hitStarts = none
        ∧ (unchangedPayload path mtime).hitEnds = none
        ∧ (unchangedPayload path mtime).breakPeriods = none
        ∧ (unchangedPayload path mtime).bookmarks = none) := by
  refine ⟨?_, ?_, ?_, ?_, rfl, rfl, rfl, rfl, rfl, rfl⟩
  · intro hk h
    simp only [scanSingleOsuFile, hk]
    rw [if_pos ((cache_window_iff cached mtime).mpr h)]
    by_cases hm : mappers.isEmpty
    · simp only [hm, Bool.not_true, Bool.false_eq_true, if_false]
      exact Or.inl trivial
    · have hmf : mappers.isEmpty = false := by revert hm; cases mappers.isEmpty <;> simp
      simp only [hmf, Bool.not_false, if_true]
      cases hh : fs.readHeader path with
      | none => simp only [hh]; exact Or.inr trivial
      | some header =>
        simp only [hh]
        by_cases hmm : mapperMatch mappers (parseHeaderCreatorAndVersion header)
        · rw [if_pos hmm]; exact Or.inl rfl
        · rw [if_neg hmm]; exact Or.inr rfl
  · intro hk h
    simp only [scanSingleOsuFile, hk]
    rw [if_neg (fun hc => absurd ((cache_window_iff cached mtime).mp hc) (not_lt.mpr h))]
  · intro hk
    simp only [scanSingleOsuFile, hk]
  · intro p hp
    unfold scanFullPath at hp
    cases hr : fs.readFull path with
    | none => rw [hr] at hp; cases hp
    | some content =>
      rw [hr] at hp
      simp only at hp
      split at hp
      · cases hp
      · cases hp
        exact ⟨rfl, rfl, rfl, rfl, rfl, rfl⟩

theorem c3_witness :
    scanSingleOsuFile fsA knownA [] "a" 0 = some (unchangedPayload "a" 0)
    ∨ scanSingleOsuFile fsA knownA [] "a" 0 = none :=
  (c3_cache fsA knownA [] "a" 0 0).1 (by decide) (by norm_num)

theorem chunksByAux_nil {α : Type} (k fuel : Nat) : chunksByAux k fuel ([] : List α) = [] := by
  cases fuel <;> rfl

theorem chunksByAux_flatten {α : Type} (k : Nat) (hk : 0 < k) :
    ∀ (fuel : Nat) (l : List α), l.length ≤ fuel → (chunksByAux k fuel l).flatten = l := by
  intro fuel
  induction fuel with
  | zero =>
    intro l hl
    have hnil : l = [] := List.length_eq_zero.mp (Nat.le_zero.mp hl)
    subst hnil
    rfl
  | succ n ih =>
    intro l hl
    cases l with
    | nil => rfl
    | cons a t =>
      simp only [chunksByAux, List.flatten_cons]
      rw [ih ((a :: t).drop k) (by
        simp only [List.length_drop, List.length_cons]
        simp only [List.length_cons] at hl
        omega)]
      exact List.take_append_drop k (a :: t)

theorem chunksBy_flatten {α : Type} (k : Nat) (hk : 0 < k) (l : List α) :
    (chunksBy k l).flatten = l :=
  chunksByAux_flatten k hk l.length l (Nat.le_refl _)

theorem chunksByAux_mem {α : Type} (k : Nat) (hk : 0 < k) :
    ∀ (fuel : Nat) (l c : List α), c ∈ chunksByAux k fuel l → c ≠ [] ∧ c.length ≤ k := by
  intro fuel
  induction fuel with
  | zero => intro l c hc; cases l <;> simp [chunksByAux] at hc
  | succ n ih =>
    intro l c hc
    cases l with
    | nil => simp [chunksByAux] at hc
    | cons a t =>
      simp only [chunksByAux, List.mem_cons] at hc
      rcases hc with hc | hc
      · subst hc
        refine ⟨?_, ?_⟩
        · cases k with
          | zero => omega
          | succ m => simp [List.take]
        · rw [List.length_take]
          exact min_le_left _ _
      · exact ih _ _ hc

theorem chunksBy_mem {α : Type} (k : Nat) (hk : 0 < k) (l c : List α)
    (hc : c ∈ chunksBy k l) : c ≠ [] ∧ c.length ≤ k :=
  chunksByAux_mem k hk l.length l c hc

theorem chunksByAux_dropLast {α : Type} (k : Nat) :
    ∀ (fuel : Nat) (l c : List α), c ∈ (chunksByAux k fuel l).dropLast → c.length = k := by
  intro fuel
  induction fuel with
  | zero => intro l c hc; cases l <;> simp [chunksByAux] at hc
  | succ n ih =>
    intro l c hc
    cases l with
    | nil => simp [chunksByAux] at hc
    | cons a t =>
      simp only [chunksByAux] at hc
      cases hrest : chunksByAux k n ((a :: t).drop k) with
      | nil => rw [hrest] at hc; simp at hc
      | cons r rs =>
        rw [hrest] at hc
        simp only [List.dropLast, List.mem_cons] at hc
        rcases hc with hc | hc
        · subst hc
          have hdrop : (a :: t).drop k ≠ [] := by
            intro hd
            rw [hd, chunksByAux_nil] at hrest
            cases hrest
          have hlen : k < (a :: t).length := by
            by_contra hle
            exact hdrop (List.drop_eq_nil_of_le (by omega))
          rw [List.length_take]
          omega
        · rw [← hrest] at hc
          exact ih _ _ hc

theorem chunksBy_dropLast {α : Type} (k : Nat) (l c : List α)
    (hc : c ∈ (chunksBy k l).dropLast) : c.length = k :=
  chunksByAux_dropLast k l.length l c hc

theorem flatten_filterMap {α β : Type} (f : α → Option β) :
    ∀ L : List (List α), L.flatten.filterMap f = (L.map (List.filterMap f)).flatten := by
  intro L
  induction L with
  | nil => rfl
  | cons l ls ih => simp only [List.flatten_cons, List.filterMap_append, ih, List.map_cons]

theorem flatten_eq_nil_of {α : Type} :
    ∀ L : List (List α), (∀ l ∈ L, l = []) → L.flatten = [] := by
  intro L
  induction L with
  | nil => intro _; rfl
  | cons l ls ih =>
    intro h
    simp only [List.flatten_cons, h l (List.mem_cons_self l ls), List.nil_append]
    exact ih (fun x hx => h x (List.mem_cons_of_mem l hx))

theorem length_filterMap_eq_countP {α β : Type} (f : α → Option β) :
    ∀ l : List α, (l.filterMap f).length = l.countP (fun a => (f a).isSome) := by
  intro l
  induction l with
  | nil => rfl
  | cons a t ih =>
    cases hfa : f a with
    | none => simp [List.filterMap_cons, hfa, List.countP_cons, ih]
    | some b => simp [List.filterMap_cons, hfa, List.countP_cons, ih]

theorem chunkSizeOf_pos (fs : FS) (par : Nat) (hw : fs.walk ≠ []) :
    0 < chunkSizeOf fs par := by
  have hlen : 0 < fs.walk.length := List.length_pos.mpr hw
  have hmt : 4 ≤ maxThreads par := by
    unfold maxThreads
    omega
  have hwc : 0 < workerCountOf fs par := by
    unfold workerCountOf
    omega
  unfold chunkSizeOf
  exact Nat.div_pos (by omega) hwc

theorem batch_lists_total {α β : Type} (g : List α → List β) :
    ∀ L : List (List α),
      ((L.map (fun ch => chunksBy 50 (g ch))).flatten.map List.length).sum
        = ((L.map g).flatten).length := by
  intro L
  induction L with
  | nil => rfl
  | cons ch chs ih =>
    simp only [List.map_cons, List.flatten_cons, List.map_append, List.sum_append,
      List.length_append, ih]
    have h1 : ((chunksBy 50 (g ch)).map List.length).sum = ((chunksBy 50 (g ch)).flatten).length := by
      rw [List.length_flatten]
    rw [h1, chunksBy_flatten 50 (by omega) (g ch)]

theorem streamBatches_total (fs : FS) (m : Option String) (k : Option (String → Option ℚ))
    (par : Nat) (hw : fs.walk ≠ []) :
    ((streamBatches fs m k par).map List.length).sum
      = (fs.walk.filterMap
          (fun e => scanSingleOsuFile fs (knownOf k) (mappersOf m) e.1 e.2)).length := by
  unfold streamBatches streamWorkerLists
  rw [batch_lists_total]
  rw [← flatten_filterMap]
  rw [chunksBy_flatten (chunkSizeOf fs par) (chunkSizeOf_pos fs par hw) fs.walk]

/-- C8: an invalid root or a walk with no candidate files makes the streaming
scan emit exactly one completion with total 0 and no batches, and makes the
synchronous scan return the empty payload; when every candidate is excluded
the trace is likewise the single zero completion; and on every input the
streaming trace is a list of batch events followed by exactly one completion
event — both entry points are total functions of their inputs and carry no
error outcome. -/
theorem c8_invalid_root (fs : FS) (dir : String) (m : Option String)
    (k : Option (String → Option ℚ)) (par : Nat) :
    (fs.rootOk = false →
      scanDirectoryStreaming fs dir m k par = [ScanEvent.complete dir 0]
      ∧ scanDirectoryInternal fs dir m k par = { files := [], directory := dir })
    ∧ (fs.walk = [] →
      scanDirectoryStreaming fs dir m k par = [ScanEvent.complete dir 0]
      ∧ scanDirectoryInternal fs dir m k par = { files := [], directory := dir })
    ∧ ((∀ e ∈ fs.walk, scanSingleOsuFile fs (knownOf k) (mappersOf m) e.1 e.2 = none) →
      scanDirectoryStreaming fs dir m k par = [ScanEvent.complete dir 0])
    ∧ (∃ (bs : List (List ScanFilePayload)) (n : Nat),
        scanDirectoryStreaming fs dir m k par =
          bs.enum.map (fun p => ScanEvent.batch p.2 dir p.1 (totalForProgress fs (mappersOf m)))
          ++ [ScanEvent.complete dir n]) := by
  refine ⟨?_, ?_, ?_, ?_⟩
  · intro hr
    constructor
    · unfold scanDirectoryStreaming
      rw [hr]
      rfl
    · unfold scanDirectoryInternal
      rw [hr]
      rfl
  · intro hw
    by_cases hr : fs.rootOk
    · constructor
      · unfold scanDirectoryStreaming
        rw [hr, hw]
        rfl
      · unfold scanDirectoryInternal
        rw [hr, hw]
        rfl
    · have hr2 : fs.rootOk = false := by revert hr; cases fs.rootOk <;> simp
      constructor
      · unfold scanDirectoryStreaming
        rw [hr2]
        rfl
      · unfold scanDirectoryInternal
        rw [hr2]
        rfl
  · intro hall
    by_cases hr : fs.rootOk
    · by_cases hw : fs.walk.isEmpty
      · unfold scanDirectoryStreaming
        rw [hr, hw]
        rfl
      · have hwf : fs.walk.isEmpty = false := by revert hw; cases fs.walk.isEmpty <;> simp
        have hwne : fs.walk ≠ [] := by
          intro hc
          rw [hc] at hwf
          cases hwf
        have hbs : streamBatches fs m k par = [] := by
          unfold streamBatches streamWorkerLists
          apply flatten_eq_nil_of
          intro wl hwl
          obtain ⟨ch, hch, rfl⟩ := List.mem_map.mp hwl
          have hfm : ch.filterMap (fun e => scanSingleOsuFile fs (knownOf k) (mappersOf m) e.1 e.2) = [] := by
            rw [List.filterMap_eq_nil_iff]
            intro e he
            apply hall
            rw [← chunksBy_flatten (chunkSizeOf fs par) (chunkSizeOf_pos fs par hwne) fs.walk]
            exact List.mem_flatten.mpr ⟨ch, hch, he⟩
          rw [hfm]
          rfl
        unfold scanDirectoryStreaming
        rw [hr, hwf, hbs]
        rfl
    · have hr2 : fs.rootOk = false := by revert hr; cases fs.rootOk <;> simp
      unfold scanDirectoryStreaming
      rw [hr2]
      rfl
  · by_cases hr : fs.rootOk
    · by_cases hw : fs.walk.isEmpty
      · refine ⟨[], 0, ?_⟩
        unfold scanDirectoryStreaming
        rw [hr, hw]
        rfl
      · have hwf : fs.walk.isEmpty = false := by revert hw; cases fs.walk.isEmpty <;> simp
        refine ⟨streamBatches fs m k par, ((streamBatches fs m k par).map List.length).sum, ?_⟩
        unfold scanDirectoryStreaming
        rw [hr, hwf]
        rfl
    · have hr2 : fs.rootOk = false := by revert hr; cases fs.rootOk <;> simp
      refine ⟨[], 0, ?_⟩
      unfold scanDirectoryStreaming
      rw [hr2]
      rfl

theorem c8_witness :
    scanDirectoryStreaming fsBad "d" none none 1 = [ScanEvent.complete "d" 0]
    ∧ scanDirectoryInternal fsBad "d" none none 1 = { files := [], directory := "d" } :=
  (c8_invalid_root fsBad "d" none none 1).1 rfl

/-- C6: for a scan that discovers at least one candidate, the trace is the
batch events — indexed 0, 1, 2, … in emission order, hence globally unique
and monotone — followed by exactly one completion; every batch is non-empty
with at most 50 results, within one worker every batch except the last holds
exactly 50 results, and the batch sizes sum exactly to the completion total,
which equals the number of included files; the size and sum facts hold for
any interleaving (permutation) of the batches across workers. -/
theorem c6_batching (fs : FS) (dir : String) (m : Option String)
    (k : Option (String → Option ℚ)) (par : Nat)
    (hroot : fs.rootOk = true) (hw : fs.walk ≠ []) :
    scanDirectoryStreaming fs dir m k par =
      (streamBatches fs m k par).enum.map
        (fun p => ScanEvent.batch p.2 dir p.1 (totalForProgress fs (mappersOf m)))
      ++ [ScanEvent.complete dir ((streamBatches fs m k par).map List.length).sum]
    ∧ (∀ b ∈ streamBatches fs m k par, b ≠ [] ∧ b.length ≤ 50)
    ∧ ((streamBatches fs m k par).map List.length).sum
        = (fs.walk.filterMap
            (fun e => scanSingleOsuFile fs (knownOf k) (mappersOf m) e.1 e.2)).length
    ∧ (∀ wl ∈ streamWorkerLists fs (knownOf k) (mappersOf m) par,
        ∀ b ∈ wl.dropLast, b.length = 50)
    ∧ (∀ bs2 : List (List ScanFilePayload), bs2.Perm (streamBatches fs m k par) →
        (∀ b ∈ bs2, b.length ≤ 50)
        ∧ (bs2.map List.length).sum = ((streamBatches fs m k par).map List.length).sum) := by
  have hwf : fs.walk.isEmpty = false := by
    cases hcase : fs.walk with
    | nil => exact absurd hcase hw
    | cons a t => rfl
  have hmem : ∀ b ∈ streamBatches fs m k par, b ≠ [] ∧ b.length ≤ 50 := by
    intro b hb
    obtain ⟨wl, hwl, hbwl⟩ := List.mem_flatten.mp hb
    obtain ⟨ch, hch, hwleq⟩ := List.mem_map.mp hwl
    rw [← hwleq] at hbwl
    exact chunksBy_mem 50 (by omega) _ b hbwl
  refine ⟨?_, hmem, ?_, ?_, ?_⟩
  · unfold scanDirectoryStreaming
    rw [hroot, hwf]
    rfl
  · exact streamBatches_total fs m k par hw
  · intro wl hwl b hb
    obtain ⟨ch, hch, hwleq⟩ := List.mem_map.mp hwl
    rw [← hwleq] at hb
    exact chunksBy_dropLast 50 _ b hb
  · intro bs2 hperm
    constructor
    · intro b hb
      exact (hmem b (hperm.subset hb)).2
    · exact (hperm.map List.length).sum_eq

theorem c6_witness :
    scanDirectoryStreaming fsB "d" none none 1 =
      (streamBatches fsB none none 1).enum.map
        (fun p => ScanEvent.batch p.2 "d" p.1 (totalForProgress fsB (mappersOf none)))
      ++ [ScanEvent.complete "d" ((streamBatches fsB none none 1).map List.length).sum] :=
  (c6_batching fsB "d" none none 1 rfl (by decide)).1

theorem completionTotals_trace (bs : List (List ScanFilePayload)) (dir : String) (d n : Nat) :
    completionTotals
      ((bs.enum.map (fun p => ScanEvent.batch p.2 dir p.1 d)) ++ [ScanEvent.complete dir n])
      = [n] := by
  unfold completionTotals
  rw [List.filterMap_append, List.filterMap_map]
  have hnil : List.filterMap
      ((fun e => match e with
        | ScanEvent.complete _ n => some n
        | _ => none) ∘ (fun p : Nat × List ScanFilePayload => ScanEvent.batch p.2 dir p.1 d))
      bs.enum = [] := by
    rw [List.filterMap_eq_nil_iff]
    intro a _
    rfl
  rw [hnil]
  rfl

/-- C5 counterexample: with filter term "unknown" and one candidate file whose
content has no metadata, the header-only pre-count is 0 while the scan emits
one result (the full parse normalizes the missing creator to
"Unknown Creator", which matches), so the progress denominator differs from
the eventual emitted total. -/
theorem c5_counterexample :
    totalForProgress fsA (parseMappers "unknown") = 0
    ∧ completionTotals (scanDirectoryStreaming fsA "d" (some "unknown") none 1) = [1]
    ∧ [totalForProgress fsA (parseMappers "unknown")]
        ≠ completionTotals (scanDirectoryStreaming fsA "d" (some "unknown") none 1) :=
  ⟨by decide, by decide, by decide⟩

/-- C5 (amended): with a non-empty filter the progress denominator is the
number of candidates passing the header-only check, and it equals the single
completion total — the eventual emitted count — whenever every candidate's
header-only decision agrees with its final inclusion decision; the two can
differ, e.g. when creator or version is absent from the first 8 KB but the
normalized full parse matches. -/
theorem c5_amended (fs : FS) (dir raw : String) (k : Option (String → Option ℚ)) (par : Nat)
    (hroot : fs.rootOk = true) (hw : fs.walk ≠ []) (hm : parseMappers raw ≠ [])
    (hagree : ∀ e ∈ fs.walk,
      fileMatchesMapper fs e.1 (parseMappers raw)
        = (scanSingleOsuFile fs (knownOf k) (parseMappers raw) e.1 e.2).isSome) :
    totalForProgress fs (parseMappers raw)
      = (fs.walk.filter (fun e => fileMatchesMapper fs e.1 (parseMappers raw))).length
    ∧ completionTotals (scanDirectoryStreaming fs dir (some raw) k par)
      = [totalForProgress fs (parseMappers raw)] := by
  have hmf : (parseMappers raw).isEmpty = false := by
    cases hcase : parseMappers raw with
    | nil => exact absurd hcase hm
    | cons a t => rfl
  have hwf : fs.walk.isEmpty = false := by
    cases hcase : fs.walk with
    | nil => exact absurd hcase hw
    | cons a t => rfl
  have hden : totalForProgress fs (parseMappers raw)
      = (fs.walk.filter (fun e => fileMatchesMapper fs e.1 (parseMappers raw))).length := by
    unfold totalForProgress
    rw [hmf]
    rfl
  refine ⟨hden, ?_⟩
  have htrace : scanDirectoryStreaming fs dir (some raw) k par =
      (streamBatches fs (some raw) k par).enum.map
        (fun p => ScanEvent.batch p.2 dir p.1 (totalForProgress fs (mappersOf (some raw))))
      ++ [ScanEvent.complete dir ((streamBatches fs (some raw) k par).map List.length).sum] := by
    unfold scanDirectoryStreaming
    rw [hroot, hwf]
    rfl
  rw [htrace, completionTotals_trace]
  have htot := streamBatches_total fs (some raw) k par hw
  rw [htot]
  have hmo : mappersOf (some raw) = parseMappers raw := rfl
  rw [hmo, hden]
  rw [length_filterMap_eq_countP]
  rw [← List.countP_eq_length_filter]
  congr 1
  apply List.countP_congr
  intro e he
  rw [hagree e he]

theorem c5_witness :
    totalForProgress fsB (parseMappers "bob")
      = (fsB.walk.filter (fun e => fileMatchesMapper fsB e.1 (parseMappers "bob"))).length
    ∧ completionTotals (scanDirectoryStreaming fsB "d" (some "bob") none 1)
      = [totalForProgress fsB (parseMappers "bob")] :=
  c5_amended fsB "d" "bob" none 1 rfl (by decide) (by decide) (by decide)

theorem mapLast_forall₂ (R : Int → Int → Prop) (f : Int → Int)
    (hf : ∀ a b, R a b → R a (f b)) :
    ∀ (ys xs : List Int), List.Forall₂ R xs ys → List.Forall₂ R xs (mapLast f ys) := by
  intro ys
  induction ys with
  | nil =>
    intro xs h
    cases h
    exact List.Forall₂.nil
  | cons b ys2 ih =>
    intro xs h
    cases h with
    | cons hab htail =>
      cases ys2 with
      | nil =>
        cases htail
        exact List.Forall₂.cons (hf _ _ hab) List.Forall₂.nil
      | cons c ys3 =>
        exact List.Forall₂.cons hab (ih _ htail)

theorem forall₂_append_le (R : Int → Int → Prop) :
    ∀ (l₁ l₂ u₁ u₂ : List Int), List.Forall₂ R l₁ l₂ → List.Forall₂ R u₁ u₂ →
      List.Forall₂ R (l₁ ++ u₁) (l₂ ++ u₂) := by
  intro l₁ l₂ u₁ u₂ h hu
  induction h with
  | nil => exact hu
  | cons hab htail ih => exact List.Forall₂.cons hab ih

theorem hitObjectUpd_forall₂ (mult : ℚ) (tps : List (Int × ℚ × Bool))
    (starts ends types : List Int) (t : List Char)
    (h : List.Forall₂ (· ≤ ·) starts ends) :
    List.Forall₂ (· ≤ ·) (hitObjectUpd mult tps starts ends types t).1
      (hitObjectUpd mult tps starts ends types t).2.1 := by
  unfold hitObjectUpd
  split
  · exact h
  · dsimp only
    apply forall₂_append_le
    · split
      · apply mapLast_forall₂
        · intro a b hab
          split
          · omega
          · exact hab
        · exact h
      · exact h
    · refine List.Forall₂.cons ?_ List.Forall₂.nil
      unfold imax
      split
      · exact le_refl _
      · omega

theorem eventsLineUpd_breaks (breaks : List TimeRange) (bg : String) (t : List Char)
    (h : ∀ r ∈ breaks, 0 ≤ r.start ∧ r.start < r.finish) :
    ∀ r ∈ (eventsLineUpd breaks bg t).1, 0 ≤ r.start ∧ r.start < r.finish := by
  unfold eventsLineUpd
  split
  · dsimp only
    intro r hr
    split at hr
    · split at hr
      · rcases List.mem_append.mp hr with hin | hin
        · exact h r hin
        · rename_i hcond
          rw [List.mem_singleton] at hin
          subst hin
          exact hcond
      · exact h r hr
    · exact h r hr
  · exact h

theorem processLine_inv (st : PState) (line : List Char)
    (h1 : List.Forall₂ (· ≤ ·) st.hitStarts st.hitEnds)
    (h2 : ∀ r ∈ st.breakPeriods, 0 ≤ r.start ∧ r.start < r.finish) :
    List.Forall₂ (· ≤ ·) (processLine st line).hitStarts (processLine st line).hitEnds
    ∧ ∀ r ∈ (processLine st line).breakPeriods, 0 ≤ r.start ∧ r.start < r.finish := by
  unfold processLine
  dsimp only
  by_cases he : (trimChars line).isEmpty = true
  · rw [if_pos he]
    exact ⟨h1, h2⟩
  rw [if_neg he]
  by_cases hc : isCommentLine (trimChars line) = true
  · rw [if_pos hc]
    exact ⟨h1, h2⟩
  rw [if_neg hc]
  by_cases hh : isHeaderLine (trimChars line) = true
  · rw [if_pos hh]
    exact ⟨h1, h2⟩
  rw [if_neg hh]
  cases hsec : st.sect with
  | Metadata => exact ⟨h1, h2⟩
  | General => exact ⟨h1, h2⟩
  | Difficulty => exact ⟨h1, h2⟩
  | TimingPoints => exact ⟨h1, h2⟩
  | Events => exact ⟨h1, eventsLineUpd_breaks st.breakPeriods st.metadata.background _ h2⟩
  | Editor => exact ⟨h1, h2⟩
  | HitObjects => exact ⟨hitObjectUpd_forall₂ _ _ _ _ _ _ h1, h2⟩
  | NoSection => exact ⟨h1, h2⟩
  | Other => exact ⟨h1, h2⟩

theorem foldl_inv :
    ∀ (lines : List (List Char)) (st : PState),
      List.Forall₂ (· ≤ ·) st.hitStarts st.hitEnds →
      (∀ r ∈ st.breakPeriods, 0 ≤ r.start ∧ r.start < r.finish) →
      List.Forall₂ (· ≤ ·) (lines.foldl processLine st).hitStarts
          (lines.foldl processLine st).hitEnds
      ∧ ∀ r ∈ (lines.foldl processLine st).breakPeriods,
          0 ≤ r.start ∧ r.start < r.finish := by
  intro lines
  induction lines with
  | nil => intro st h1 h2; exact ⟨h1, h2⟩
  | cons line rest ih =>
    intro st h1 h2
    have hstep := processLine_inv st line h1 h2
    exact ih (processLine st line) hstep.1 hstep.2

theorem norm_mode (m : ParsedMetadata) :
    0 ≤ (normalizeMetadata m).mode ∧ (normalizeMetadata m).mode ≤ 3 := by
  unfold normalizeMetadata
  dsimp only
  constructor
  · split
    · omega
    · split <;> omega
  · split
    · omega
    · split <;> omega

theorem norm_nonempty (b d : String) (hd : d ≠ "") :
    (if b.data.isEmpty then d else b) ≠ "" := by
  split
  · exact hd
  · intro hc
    subst hc
    rename_i hcond
    exact hcond (by decide)

/-- C2: every parsed chart has mode clamped into [0, 3], pointwise
hitEnds ≥ hitStarts (as equal-length parallel lists), every recorded break
period has 0 ≤ start < end, and the normalized Title, Artist, Creator,
Version and BeatmapSetID strings are non-empty. -/
theorem c2_parse_invariants (content : String) :
    (0 ≤ (parseOsuContent content).metadata.mode
      ∧ (parseOsuContent content).metadata.mode ≤ 3)
    ∧ List.Forall₂ (· ≤ ·) (parseOsuContent content).hitStarts
        (parseOsuContent content).hitEnds
    ∧ (∀ r ∈ (parseOsuContent content).breakPeriods, 0 ≤ r.start ∧ r.start < r.finish)
    ∧ (parseOsuContent content).metadata.title ≠ ""
    ∧ (parseOsuContent content).metadata.artist ≠ ""
    ∧ (parseOsuContent content).metadata.creator ≠ ""
    ∧ (parseOsuContent content).metadata.version ≠ ""
    ∧ (parseOsuContent content).metadata.beatmapSetID ≠ "" := by
  have hfold := foldl_inv (linesOf content) initState List.Forall₂.nil (by intro r hr; cases hr)
  refine ⟨?_, hfold.1, hfold.2, ?_, ?_, ?_, ?_, ?_⟩
  · exact norm_mode _
  · exact norm_nonempty _ _ (by decide)
  · exact norm_nonempty _ _ (by decide)
  · exact norm_nonempty _ _ (by decide)
  · exact norm_nonempty _ _ (by decide)
  · exact norm_nonempty _ _ (by decide)

theorem c2_witness :
    TimeRange.mk 10 20 ∈ (parseOsuContent breakChart).breakPeriods
    ∧ 0 ≤ (TimeRange.mk 10 20).start
    ∧ (TimeRange.mk 10 20).start < (TimeRange.mk 10 20).finish := by
  refine ⟨by decide, ?_, ?_⟩
  · exact ((c2_parse_invariants breakChart).2.2.1 (TimeRange.mk 10 20) (by decide)).1
  · exact ((c2_parse_invariants breakChart).2.2.1 (TimeRange.mk 10 20) (by decide)).2

theorem bfalse {b : Bool} (h : ¬ b = true) : b = false := by
  cases b
  · rfl
  · exact absurd rfl h

theorem nil_of_isEmpty {l : List Char} (h : l.isEmpty = true) : l = [] := by
  cases l
  · rfl
  · cases h

theorem ne_nil_of_isEmpty_false {l : List Char} (h : l.isEmpty = false) : l ≠ [] := by
  intro hc
  subst hc
  cases h

theorem and_false_cases {a b : Bool} (h : (!a && !b) = false) : a = true ∨ b = true := by
  cases a
  · cases b
    · cases h
    · exact Or.inr rfl
  · exact Or.inl rfl

theorem and_true_cases {a b : Bool} (h : (!a && !b) = true) : a = false ∧ b = false := by
  cases a <;> cases b <;> simp_all

theorem countP_tail_of_false {p : List Char → Bool} {line : List Char}
    {rest : List (List Char)} (hp : p line = false) :
    (line :: rest).countP p = rest.countP p := by
  rw [List.countP_cons, hp]
  simp

theorem countP_tail_le {p : List Char → Bool} {line : List Char} {rest : List (List Char)} :
    rest.countP p ≤ (line :: rest).countP p := by
  rw [List.countP_cons]
  omega

theorem keyLineCI_eval (line : List Char) (kv : List Char × List Char) (name : List Char)
    (he : (trimChars line).isEmpty = false)
    (hcm : isCommentLine (trimChars line) = false)
    (hhd : isHeaderLine (trimChars line) = false)
    (hsp : splitOnceChar ':' (trimChars line) = some kv) :
    keyLineCI name line = eqCI (trimChars kv.1) name := by
  unfold keyLineCI
  dsimp only
  rw [he, hcm, hhd, hsp]
  simp

theorem keyLineCI_false_of_skip (line : List Char) (name : List Char)
    (h : (trimChars line).isEmpty = true ∨ isCommentLine (trimChars line) = true ∨
      isHeaderLine (trimChars line) = true ∨ splitOnceChar ':' (trimChars line) = none) :
    keyLineCI name line = false := by
  unfold keyLineCI
  dsimp only
  rcases h with h | h | h | h
  · rw [h]; simp
  · rw [h]; simp
  · rw [h]; simp
  · rw [h]; simp

theorem eqCI_creator_version (k : List Char) (h : eqCI k "Creator".data = true) :
    eqCI k "Version".data = false := by
  unfold eqCI at h ⊢
  have hk : k.map lowerChar = "Creator".data.map lowerChar := by
    exact beq_iff_eq.mp h
  rw [hk]
  decide

theorem phcvNoStopAux_const :
    ∀ (lines : List (List Char)) (inMeta : Bool) (c v : List Char),
      lines.countP (keyLineCI "Creator".data) = 0 →
      lines.countP (keyLineCI "Version".data) = 0 →
      phcvNoStopAux lines inMeta c v = (c, v) := by
  intro lines
  induction lines with
  | nil => intro inMeta c v _ _; rfl
  | cons line rest ih =>
    intro inMeta c v hc hv
    simp only [phcvNoStopAux]
    by_cases he : (trimChars line).isEmpty = true
    · simp only [he, if_true]
      rw [countP_tail_of_false (keyLineCI_false_of_skip line _ (Or.inl he))] at hc
      rw [countP_tail_of_false (keyLineCI_false_of_skip line _ (Or.inl he))] at hv
      exact ih inMeta c v hc hv
    have he' : (trimChars line).isEmpty = false := bfalse he
    simp only [he', Bool.false_eq_true, if_false]
    by_cases hcm : isCommentLine (trimChars line) = true
    · simp only [hcm, if_true]
      rw [countP_tail_of_false (keyLineCI_false_of_skip line _ (Or.inr (Or.inl hcm)))] at hc
      rw [countP_tail_of_false (keyLineCI_false_of_skip line _ (Or.inr (Or.inl hcm)))] at hv
      exact ih inMeta c v hc hv
    have hcm' : isCommentLine (trimChars line) = false := bfalse hcm
    simp only [hcm', Bool.false_eq_true, if_false]
    by_cases hhd : isHeaderLine (trimChars line) = true
    · simp only [hhd, if_true]
      rw [countP_tail_of_false (keyLineCI_false_of_skip line _ (Or.inr (Or.inr (Or.inl hhd))))] at hc
      rw [countP_tail_of_false (keyLineCI_false_of_skip line _ (Or.inr (Or.inr (Or.inl hhd))))] at hv
      exact ih _ c v hc hv
    have hhd' : isHeaderLine (trimChars line) = false := bfalse hhd
    simp only [hhd', Bool.false_eq_true, if_false]
    by_cases him : inMeta = true
    · simp only [him, if_true]
      cases hsp : splitOnceChar ':' (trimChars line) with
      | none =>
        rw [countP_tail_of_false (keyLineCI_false_of_skip line _ (Or.inr (Or.inr (Or.inr hsp))))] at hc
        rw [countP_tail_of_false (keyLineCI_false_of_skip line _ (Or.inr (Or.inr (Or.inr hsp))))] at hv
        exact ih _ c v hc hv
      | some kv =>
        have hklc : keyLineCI "Creator".data line = eqCI (trimChars kv.1) "Creator".data :=
          keyLineCI_eval line kv _ he' hcm' hhd' hsp
        have hklv : keyLineCI "Version".data line = eqCI (trimChars kv.1) "Version".data :=
          keyLineCI_eval line kv _ he' hcm' hhd' hsp
        have hkeyc : eqCI (trimChars kv.1) "Creator".data = false := by
          by_cases hx : eqCI (trimChars kv.1) "Creator".data = true
          · rw [List.countP_cons, hklc, hx] at hc; simp at hc
          · exact bfalse hx
        have hkeyv : eqCI (trimChars kv.1) "Version".data = false := by
          by_cases hx : eqCI (trimChars kv.1) "Version".data = true
          · rw [List.countP_cons, hklv, hx] at hv; simp at hv
          · exact bfalse hx
        simp only [hsp, hkeyc, hkeyv, Bool.false_eq_true, if_false]
        rw [countP_tail_of_false (by rw [hklc]; exact hkeyc)] at hc
        rw [countP_tail_of_false (by rw [hklv]; exact hkeyv)] at hv
        exact ih _ c v hc hv
    · have him' : inMeta = false := bfalse him
      simp only [him', Bool.false_eq_true, if_false]
      have hc2 : rest.countP (keyLineCI "Creator".data) = 0 := by
        have := @countP_tail_le (keyLineCI "Creator".data) line rest
        omega
      have hv2 : rest.countP (keyLineCI "Version".data) = 0 := by
        have := @countP_tail_le (keyLineCI "Version".data) line rest
        omega
      exact ih _ c v hc2 hv2

theorem phcvAux_agree :
    ∀ (lines : List (List Char)) (inMeta : Bool) (c v : List Char),
      lines.countP (keyLineCI "Creator".data) ≤ 1 →
      lines.countP (keyLineCI "Version".data) ≤ 1 →
      (c ≠ [] → lines.countP (keyLineCI "Creator".data) = 0) →
      (v ≠ [] → lines.countP (keyLineCI "Version".data) = 0) →
      (c = [] ∨ v = []) →
      phcvAux lines inMeta c v = phcvNoStopAux lines inMeta c v := by
  intro lines
  induction lines with
  | nil => intro inMeta c v _ _ _ _ _; rfl
  | cons line rest ih =>
    intro inMeta c v h1 h2 h3 h4 h5
    simp only [phcvAux, phcvNoStopAux]
    by_cases he : (trimChars line).isEmpty = true
    · simp only [he, if_true]
      rw [countP_tail_of_false (keyLineCI_false_of_skip line _ (Or.inl he))] at h1 h3
      rw [countP_tail_of_false (keyLineCI_false_of_skip line _ (Or.inl he))] at h2 h4
      exact ih inMeta c v h1 h2 h3 h4 h5
    have he' : (trimChars line).isEmpty = false := bfalse he
    simp only [he', Bool.false_eq_true, if_false]
    by_cases hcm : isCommentLine (trimChars line) = true
    · simp only [hcm, if_true]
      rw [countP_tail_of_false (keyLineCI_false_of_skip line _ (Or.inr (Or.inl hcm)))] at h1 h3
      rw [countP_tail_of_false (keyLineCI_false_of_skip line _ (Or.inr (Or.inl hcm)))] at h2 h4
      exact ih inMeta c v h1 h2 h3 h4 h5
    have hcm' : isCommentLine (trimChars line) = false := bfalse hcm
    simp only [hcm', Bool.false_eq_true, if_false]
    by_cases hhd : isHeaderLine (trimChars line) = true
    · simp only [hhd, if_true]
      have hcond : (!eqCI (innerHeader (trimChars line)) "Metadata".data
          && !c.isEmpty && !v.isEmpty) = false := by
        rcases h5 with rfl | rfl <;> simp
      simp only [hcond, Bool.false_eq_true, if_false]
      rw [countP_tail_of_false (keyLineCI_false_of_skip line _ (Or.inr (Or.inr (Or.inl hhd))))] at h1 h3
      rw [countP_tail_of_false (keyLineCI_false_of_skip line _ (Or.inr (Or.inr (Or.inl hhd))))] at h2 h4
      exact ih _ c v h1 h2 h3 h4 h5
    have hhd' : isHeaderLine (trimChars line) = false := bfalse hhd
    simp only [hhd', Bool.false_eq_true, if_false]
    by_cases him : inMeta = true
    · simp only [him, if_true]
      cases hsp : splitOnceChar ':' (trimChars line) with
      | none =>
        rw [countP_tail_of_false (keyLineCI_false_of_skip line _ (Or.inr (Or.inr (Or.inr hsp))))] at h1 h3
        rw [countP_tail_of_false (keyLineCI_false_of_skip line _ (Or.inr (Or.inr (Or.inr hsp))))] at h2 h4
        exact ih _ c v h1 h2 h3 h4 h5
      | some kv =>
        have hklc : keyLineCI "Creator".data line = eqCI (trimChars kv.1) "Creator".data :=
          keyLineCI_eval line kv _ he' hcm' hhd' hsp
        have hklv : keyLineCI "Version".data line = eqCI (trimChars kv.1) "Version".data :=
          keyLineCI_eval line kv _ he' hcm' hhd' hsp
        by_cases hkeyc : eqCI (trimChars kv.1) "Creator".data = true
        · simp only [hsp, hkeyc, if_true]
          have hklc' : keyLineCI "Creator".data line = true := by rw [hklc]; exact hkeyc
          have hklvf : keyLineCI "Version".data line = false := by
            rw [hklv]; exact eqCI_creator_version _ hkeyc
          have hcr0 : rest.countP (keyLineCI "Creator".data) = 0 := by
            have h1b : rest.countP (keyLineCI "Creator".data) + 1 ≤ 1 := by
              rw [List.countP_cons, hklc'] at h1
              simpa using h1
            omega
          rw [countP_tail_of_false hklvf] at h2 h4
          by_cases hstop : (!(trimChars kv.2).isEmpty && !v.isEmpty) = true
          · simp only [hstop, if_true]
            have hv0 := (and_true_cases hstop).2
            have hvr0 : rest.countP (keyLineCI "Version".data) = 0 :=
              h4 (ne_nil_of_isEmpty_false hv0)
            exact (phcvNoStopAux_const rest _ _ _ hcr0 hvr0).symm
          · have hstop' : (!(trimChars kv.2).isEmpty && !v.isEmpty) = false := bfalse hstop
            simp only [hstop', Bool.false_eq_true, if_false]
            refine ih _ (trimChars kv.2) v (by omega) h2 (fun _ => hcr0) h4 ?_
            rcases and_false_cases hstop' with hx | hx
            · exact Or.inl (nil_of_isEmpty hx)
            · exact Or.inr (nil_of_isEmpty hx)
        · have hkeyc' : eqCI (trimChars kv.1) "Creator".data = false := bfalse hkeyc
          have hklcf : keyLineCI "Creator".data line = false := by rw [hklc]; exact hkeyc'
          by_cases hkeyv : eqCI (trimChars kv.1) "Version".data = true
          · simp only [hsp, hkeyc', hkeyv, Bool.false_eq_true, if_false, if_true]
            have hklv' : keyLineCI "Version".data line = true := by rw [hklv]; exact hkeyv
            have hvr0 : rest.countP (keyLineCI "Version".data) = 0 := by
              have h2b : rest.countP (keyLineCI "Version".data) + 1 ≤ 1 := by
                rw [List.countP_cons, hklv'] at h2
                simpa using h2
              omega
            rw [countP_tail_of_false hklcf] at h1 h3
            by_cases hstop : (!c.isEmpty && !(trimChars kv.2).isEmpty) = true
            · simp only [hstop, if_true]
              have hc0 := (and_true_cases hstop).1
              have hcr0 : rest.countP (keyLineCI "Creator".data) = 0 :=
                h3 (ne_nil_of_isEmpty_false hc0)
              exact (phcvNoStopAux_const rest _ _ _ hcr0 hvr0).symm
            · have hstop' : (!c.isEmpty && !(trimChars kv.2).isEmpty) = false := bfalse hstop
              simp only [hstop', Bool.false_eq_true, if_false]
              refine ih _ c (trimChars kv.2) h1 (by omega) h3 (fun _ => hvr0) ?_
              rcases and_false_cases hstop' with hx | hx
              · exact Or.inl (nil_of_isEmpty hx)
              · exact Or.inr (nil_of_isEmpty hx)
          · have hkeyv' : eqCI (trimChars kv.1) "Version".data = false := bfalse hkeyv
            simp only [hsp, hkeyc', hkeyv', Bool.false_eq_true, if_false]
            have hklvf : keyLineCI "Version".data line = false := by rw [hklv]; exact hkeyv'
            have hstop : (!c.isEmpty && !v.isEmpty) = false := by
              rcases h5 with rfl | rfl <;> simp
            simp only [hstop, Bool.false_eq_true, if_false]
            rw [countP_tail_of_false hklcf] at h1 h3
            rw [countP_tail_of_false hklvf] at h2 h4
            exact ih _ c v h1 h2 h3 h4 h5
    · have him' : inMeta = false := bfalse him
      simp only [him', Bool.false_eq_true, if_false]
      refine ih _ c v (le_trans countP_tail_le h1) (le_trans countP_tail_le h2) ?_ ?_ h5
      · intro hcne
        have h0 := h3 hcne
        rw [List.countP_cons] at h0
        omega
      · intro hvne
        have h0 := h4 hvne
        rw [List.countP_cons] at h0
        omega

/-- C9 counterexample: on a prefix that assigns Creator twice the extractor
stops inside the Metadata section right after both values become non-empty
and returns ("A", "B"), while the no-early-stop scan of the same prefix
returns ("C", "B") — the early stop is not a pure optimization, and it fires
before the parser has left the Metadata section. -/
theorem c9_counterexample :
    parseHeaderCreatorAndVersion c9dup ≠ phcvNoStop c9dup
    ∧ parseHeaderCreatorAndVersion c9dup = ("A", "B")
    ∧ phcvNoStop c9dup = ("C", "B") :=
  ⟨by decide, by decide, by decide⟩

/-- C9 (amended): the header extractor stops early as soon as both values are
non-empty — at a key line inside the Metadata section or at a section header
leaving it — so its result can differ from a full scan when the prefix
re-assigns Creator or Version afterwards; whenever the prefix holds at most
one Creator key line and at most one Version key line, the early stop is a
pure optimization: the result equals the scan of the entire prefix without
stopping. -/
theorem c9_amended (content : String)
    (hc : (linesOf content).countP (keyLineCI "Creator".data) ≤ 1)
    (hv : (linesOf content).countP (keyLineCI "Version".data) ≤ 1) :
    parseHeaderCreatorAndVersion content = phcvNoStop content := by
  unfold parseHeaderCreatorAndVersion phcvNoStop
  rw [phcvAux_agree (linesOf content) false [] [] hc hv
    (fun h => absurd rfl h) (fun h => absurd rfl h) (Or.inl rfl)]

theorem c9_witness : parseHeaderCreatorAndVersion c9once = phcvNoStop c9once :=
  c9_amended c9once (by decide) (by decide)


end Mosu
